import Mathlib

/-!
Verification of the transcript parser in `src/app.py` (repository
huntergt7/transcript-to-table).

The Python source is shallowly embedded below.  Strings are modelled as
`List Char` internally (Lean `String` at the interfaces).  Python's `re`
patterns, which in the source are a fixed handful of concrete regexes, are
embedded as explicit backtracking recognizers that follow the leftmost-match
and greedy/lazy semantics of each concrete pattern.  Python's `\s`, `\w`,
`str.strip`, `str.upper`, `str.casefold` are modelled at ASCII granularity
(the source relies on them only for ASCII data in every behaviour verified
here).  `html.unescape` (Python standard library, not repository code) is
modelled as the identity on the text.

The source file is stored mojibake-encoded: its character-class literals
contain the literal characters U+201A, U+00C4, U+00FA, ... .  The embedding
reproduces exactly those code points (written with escapes below).
-/

namespace App

/-- Python `\s` whitespace (ASCII part): space, tab, newline, carriage
return, vertical tab, form feed. -/
def isPySpace (c : Char) : Bool :=
  c = ' ' || c = '\t' || c = '\n' || c = '\r' || c = '\x0b' || c = '\x0c'

/-- Python `\w` word character (ASCII part): alphanumeric or underscore. -/
def isWordChar (c : Char) : Bool :=
  c.isAlphanum || c = '_'

/-- `WRAP_CHARS` from the source (line 20): whitespace, straight quotes,
braces, angle brackets and the four mojibake quote sequences, as a set of
characters for `str.strip`. -/
def wrapChars : List Char :=
  [' ', '\t', '\r', '\n', '"', '\'', '\x7b', '\x7d', '<', '>',
   '‚', 'Ä', 'ú', 'ù', 'ò', 'ô']

/-- The leading-punctuation class of `_clean_quote` (line 27):
`[\-‚Äì‚Äî:¬∑‚Ä¢*#> ]` with the mojibake characters spelled out. -/
def isLeadPunct (c : Char) : Bool :=
  c = '-' || c = '‚' || c = 'Ä' || c = 'ì' || c = 'î' ||
  c = ':' || c = '¬' || c = '∑' || c = '¢' ||
  c = '*' || c = '#' || c = '>' || c = ' '

/-- `_BOUNDARY` (line 64): whitespace other than `\r`/`\n`, or one of a
fixed punctuation set (including the mojibake quote/dash characters). -/
def isBoundaryChar (c : Char) : Bool :=
  (isPySpace c && !(c = '\r') && !(c = '\n')) ||
  c = '-' || c = '‚' || c = 'Ä' || c = 'ì' || c = 'î' ||
  c = ':' || c = ';' || c = ',' || c = '/' || c = '\\' ||
  c = '[' || c = ']' || c = '(' || c = ')' || c = '\x7b' || c = '\x7d' ||
  c = 'ú' || c = 'ù' || c = '"' || c = '\'' || c = '<' || c = '>' ||
  c = '¶' || c = '!' || c = '?' || c = '.'

/-- The delimiter class of `_SPEAKER_DELIM_ANY_RE` (line 91):
`[:Ôºö\-‚Äì‚Äî]` with the mojibake characters spelled out. -/
def isDelimChar (c : Char) : Bool :=
  c = ':' || c = 'Ô' || c = 'º' || c = 'ö' || c = '-' ||
  c = '‚' || c = 'Ä' || c = 'ì' || c = 'î'

/-- Python `str.strip()` (no argument): strip whitespace at both ends. -/
def stripWS (l : List Char) : List Char :=
  ((l.dropWhile isPySpace).reverse.dropWhile isPySpace).reverse

/-- Python `str.strip(chars)`: strip any of `chars` at both ends. -/
def stripChars (chars : List Char) (l : List Char) : List Char :=
  ((l.dropWhile (chars.contains ·)).reverse.dropWhile (chars.contains ·)).reverse

/-- Drop trailing whitespace only. -/
def dropTrailingWS (l : List Char) : List Char :=
  (l.reverse.dropWhile isPySpace).reverse

/-- `re.sub(r"^[\-‚Äì‚Äî:¬∑‚Ä¢*#> ]+", "", s)`: drop the leading run of
decorative punctuation. -/
def dropLeadPunct (l : List Char) : List Char :=
  l.dropWhile isLeadPunct

/-- `re.sub(r"\s+", " ", s)`: collapse every whitespace run to one space. -/
def collapseWSAux : Bool → List Char → List Char
  | _, [] => []
  | prevSpace, c :: t =>
    if isPySpace c then
      if prevSpace then collapseWSAux true t else ' ' :: collapseWSAux true t
    else c :: collapseWSAux false t

def collapseWS (l : List Char) : List Char := collapseWSAux false l

/-- Python `str.replace(pat, repl)`, leftmost non-overlapping, for a
non-empty `pat`; `fuel` bounds the scan (callers pass the text length). -/
def replaceAllAux (pat repl : List Char) : Nat → List Char → List Char
  | 0, l => l
  | _ + 1, [] => []
  | fuel + 1, c :: t =>
    if pat.isPrefixOf (c :: t) then
      repl ++ replaceAllAux pat repl fuel ((c :: t).drop pat.length)
    else c :: replaceAllAux pat repl fuel t

def replaceAll (pat repl l : List Char) : List Char :=
  replaceAllAux pat repl l.length l

/-- `_MOJIBAKE_FIXES` (lines 55-57), applied in dictionary order by
`_normalize_mojibake`.  The key/value strings are themselves mojibake
sequences in the source file; their exact code points are reproduced. -/
def normalizeMojibake (l : List Char) : List Char :=
  let l := replaceAll
    ['√', '¢', '‚', 'Ç', '¨', '¬', '¶']
    ['‚', 'Ä', '¶'] l
  let l := replaceAll
    ['√', '¢', '‚', 'Ç', '¨', '‚', 'Ä', 'ù']
    ['‚', 'Ä', 'î'] l
  let l := replaceAll
    ['√', '¢', '‚', 'Ç', '¨', '‚', 'Ä', 'ú']
    ['‚', 'Ä', 'ì'] l
  replaceAll ['√', 'Ç', ' '] [' '] l

/-- `html.unescape` (Python standard library, external to the repository):
modelled as the identity on the text; none of the verified behaviours
depend on HTML entity decoding. -/
def htmlUnescape (l : List Char) : List Char := l

/-- `_is_meaningful`: true iff the text contains at least one `\w` char. -/
def isMeaningful (l : List Char) : Bool := l.any isWordChar

/-- `_clean_quote` (lines 25-30): strip, drop leading punctuation run and
strip, strip wrapper characters, collapse whitespace. -/
def cleanQuote (l : List Char) : List Char :=
  collapseWS (stripChars wrapChars (stripWS (dropLeadPunct (stripWS l))))

/-- `_normalize_name_input`: strip, then collapse internal whitespace. -/
def normalizeNameChars (l : List Char) : List Char :=
  collapseWS (stripWS l)

def normalizeNameInput (s : String) : String :=
  ⟨normalizeNameChars s.data⟩

/-- Python `str.split()` with no argument: split on whitespace runs,
dropping empty pieces. -/
def splitWSAux : List Char → List Char → List (List Char)
  | cur, [] => if cur.isEmpty then [] else [cur.reverse]
  | cur, c :: t =>
    if isPySpace c then
      if cur.isEmpty then splitWSAux [] t else cur.reverse :: splitWSAux [] t
    else splitWSAux (c :: cur) t

def splitWS (l : List Char) : List (List Char) := splitWSAux [] l

/-- Word count `_wc` (lines 350-352): 0 for whitespace-only text, else the
number of `\s+`-separated pieces of the stripped text. -/
def wcAux : Bool → List Char → Nat
  | _, [] => 0
  | inWord, c :: t =>
    if isPySpace c then wcAux false t
    else (if inWord then 0 else 1) + wcAux true t

def wc (s : String) : Nat :=
  let t := stripWS s.data
  if t.isEmpty then 0 else wcAux false t

/-- Decimal digits of a natural number, most significant first (`fuel`
bounds the recursion; `natDigits` passes `n + 1`, which suffices because
the argument strictly decreases under division by ten). -/
def natDigitsAux : Nat → Nat → List Char
  | 0, _ => []
  | fuel + 1, n =>
    if n < 10 then [Char.ofNat (48 + n)]
    else natDigitsAux fuel (n / 10) ++ [Char.ofNat (48 + n % 10)]

def natDigits (n : Nat) : List Char := natDigitsAux (n + 1) n

/-- Python `f"{n:02d}"`: decimal digits zero-padded to width two. -/
def pad2 (n : Nat) : List Char :=
  if n < 10 then '0' :: natDigits n else natDigits n

/-- `_to_mmss` (lines 39-43) for an integral non-negative shift: total
seconds from minutes/seconds, shift subtracted and clamped at zero
(truncated subtraction), reformatted as zero-padded `MM:SS`. -/
def toMmss (mm ss shift : Nat) : String :=
  let total := mm * 60 + ss - shift
  ⟨pad2 (total / 60) ++ ':' :: pad2 (total % 60)⟩

/-! ### Timestamp search: `_TS_RE_ANYWHERE` -/

/-- Numeric value of an ASCII digit. -/
def digitVal (c : Char) : Nat := c.toNat - 48

/-- Read exactly two digits. -/
def take2Digits : List Char → Option (Nat × List Char)
  | a :: b :: r =>
    if a.isDigit && b.isDigit then some (digitVal a * 10 + digitVal b, r)
    else none
  | _ => none

/-- Read exactly one digit. -/
def take1Digit : List Char → Option (Nat × List Char)
  | a :: r => if a.isDigit then some (digitVal a, r) else none
  | [] => none

/-- `\b` at the end of a match whose last character is a digit: the next
character, if any, must not be a word character. -/
def wordBreakAt : List Char → Bool
  | [] => true
  | c :: _ => !(isWordChar c)

/-- `(?:\.\d+)?` followed by `\b`, fractional part present: a dot and a
maximal digit run (taking fewer digits can never restore the `\b`, since
the following character would then be a digit). -/
def tryFrac : List Char → Option (List Char)
  | '.' :: r =>
    match r with
    | c :: _ =>
      if c.isDigit then
        let rest := r.dropWhile Char.isDigit
        if wordBreakAt rest then some rest else none
      else none
    | [] => none
  | _ => none

/-- `(?::(\d{2}))?(?:\.\d+)?\b` after `MM:SS` has been consumed, with the
regex backtracking order: optional third group first, within it the
optional fraction first. -/
def afterMMSS (rest : List Char) : Option (Option Nat × List Char) :=
  let without : Option (Option Nat × List Char) :=
    match tryFrac rest with
    | some r => some (none, r)
    | none => if wordBreakAt rest then some (none, rest) else none
  match rest with
  | ':' :: r2 =>
    match take2Digits r2 with
    | some (v, r3) =>
      (match tryFrac r3 with
       | some r4 => some (some v, r4)
       | none => if wordBreakAt r3 then some (some v, r3) else none).orElse
        (fun _ => without)
    | none => without
  | _ => without

/-- One attempt of `\b(\d{1,2}):(\d{2})(?::(\d{2}))?(?:\.\d+)?\b` at the
current position, two-digit first group tried before one-digit (greedy
`\d{1,2}`).  Returns the groups and the consumed length. -/
def tsHere (s : List Char) : Option (Nat × Nat × Option Nat × Nat) :=
  let go (first : Option (Nat × List Char)) : Option (Nat × Nat × Option Nat × Nat) :=
    match first with
    | some (g1, r1) =>
      match r1 with
      | ':' :: r2 =>
        match take2Digits r2 with
        | some (g2, r3) =>
          match afterMMSS r3 with
          | some (g3, r4) => some (g1, g2, g3, s.length - r4.length)
          | none => none
        | none => none
      | _ => none
    | none => none
  (go (take2Digits s)).orElse (fun _ => go (take1Digit s))

/-- A located timestamp match: groups plus the text before and after it. -/
structure TsFound where
  g1 : Nat
  g2 : Nat
  g3 : Option Nat
  before : List Char
  after : List Char
deriving Repr, DecidableEq

/-- Left-to-right scan of `_TS_RE_ANYWHERE.search`: at each position the
leading `\b` requires the previous character (if any) to be a non-word
character, since the first pattern character is a digit. -/
def findTsAux (prev : Option Char) (acc : List Char) : List Char → Option TsFound
  | [] => none
  | c :: rest =>
    let boundaryOk := match prev with
      | none => true
      | some p => !(isWordChar p)
    if boundaryOk then
      match tsHere (c :: rest) with
      | some (g1, g2, g3, len) =>
        some ⟨g1, g2, g3, acc.reverse, (c :: rest).drop len⟩
      | none => findTsAux (some c) (c :: acc) rest
    else findTsAux (some c) (c :: acc) rest

def findTs (l : List Char) : Option TsFound := findTsAux none [] l

/-- The five materialization sites share this group selection: with a third
group present the hours component (group 1) is discarded and
`mm, ss := group 2, group 3`; otherwise `mm, ss := group 1, group 2`. -/
def tsFromGroups (m : TsFound) (shift : Nat) : String :=
  match m.g3 with
  | some s3 => toMmss m.g2 s3 shift
  | none => toMmss m.g1 m.g2 shift

/-- `CUE_ARROW_RE.search`: the line contains `-->` or one of the two
mojibake dash sequences followed by `>`. -/
def hasCueArrowAux : Nat → List Char → Bool
  | 0, _ => false
  | _ + 1, [] => false
  | fuel + 1, c :: t =>
    ['-', '-', '>'].isPrefixOf (c :: t) ||
    ['‚', 'Ä', 'ì', '>'].isPrefixOf (c :: t) ||
    ['‚', 'Ä', 'î', '>'].isPrefixOf (c :: t) ||
    hasCueArrowAux fuel t

def hasCueArrow (l : List Char) : Bool := hasCueArrowAux (l.length + 1) l

/-! ### Speaker line patterns -/

/-- `_SPEAKER_BRACKET_RE`: `^\s*\[(?P<name>[^\]]+)\]\s*(?P<rest>.*)$`. -/
def bracketMatch (l : List Char) : Option (List Char × List Char) :=
  match l.dropWhile isPySpace with
  | '[' :: r =>
    let name := r.takeWhile (· ≠ ']')
    match r.dropWhile (· ≠ ']') with
    | _ :: afterBr =>
      if name.isEmpty then none
      else some (name, afterBr.dropWhile isPySpace)
    | [] => none
  | _ => none

/-- One attempt of `_SPEAKER_PAREN_ANY_RE` with the `^\s*` group fixed to
`a` characters: the name (lazy, at least one character) runs to the first
`(` at index ≥ a+1, with the maximal whitespace run before that `(`
assigned to the `\s*` between name and parenthesis; the parenthesized
group (lazy `[^)]*?`) runs to the first `)`. -/
def parenTryA (l : List Char) (a : Nat) : Option (List Char × List Char × List Char) :=
  match l.drop a with
  | [] => none
  | c :: t =>
    let beforeP := t.takeWhile (· ≠ '(')
    match t.dropWhile (· ≠ '(') with
    | [] => none
    | _ :: afterP =>
      let tsTok := afterP.takeWhile (· ≠ ')')
      match afterP.dropWhile (· ≠ ')') with
      | [] => none
      | _ :: afterR =>
        let nameFull := c :: beforeP
        let nameTrim := dropTrailingWS nameFull
        let name := if nameTrim.isEmpty then [c] else nameTrim
        some (name, tsTok, afterR.dropWhile isPySpace)

/-- Backtracking over the greedy `^\s*` of `_SPEAKER_PAREN_ANY_RE`:
longest leading-whitespace consumption tried first. -/
def parenGo (l : List Char) : Nat → Option (List Char × List Char × List Char)
  | 0 => parenTryA l 0
  | a + 1 => (parenTryA l (a + 1)).orElse (fun _ => parenGo l a)

def parenMatch (l : List Char) : Option (List Char × List Char × List Char) :=
  parenGo l (l.takeWhile isPySpace).length

/-- The lazy-name scan of `_SPEAKER_DELIM_ANY_RE` for a fixed start: grow
the name one character at a time; at each stop the `\s*` consumes the
whitespace run, the next character must be a delimiter and must be
followed by at least one whitespace character (`\s+`, greedy). -/
def delimHit (name rest : List Char) : Option (List Char × List Char) :=
  match rest.dropWhile isPySpace with
  | d :: u =>
    if isDelimChar d then
      match u with
      | w :: _ =>
        if isPySpace w then some (name, u.dropWhile isPySpace) else none
      | [] => none
    else none
  | [] => none

def delimGoQ (name : List Char) : List Char → Option (List Char × List Char)
  | [] => delimHit name []
  | c :: t =>
    match delimHit name (c :: t) with
    | some r => some r
    | none => delimGoQ (name ++ [c]) t

def delimTryA (l : List Char) (a : Nat) : Option (List Char × List Char) :=
  match l.drop a with
  | c :: t => delimGoQ [c] t
  | [] => none

def delimGoA (l : List Char) : Nat → Option (List Char × List Char)
  | 0 => delimTryA l 0
  | a + 1 => (delimTryA l (a + 1)).orElse (fun _ => delimGoA l a)

def delimMatch (l : List Char) : Option (List Char × List Char) :=
  delimGoA l (l.takeWhile isPySpace).length

/-! ### Name patterns: bare tokens and whole-name replacement -/

/-- Case-insensitive (ASCII lowering) literal character match. -/
def lowerEq (a b : Char) : Bool := a.toLower = b.toLower

/-- Match one literal name token case-insensitively; returns the rest. -/
def matchTok : List Char → List Char → Option (List Char)
  | [], s => some s
  | _ :: _, [] => none
  | c :: tr, d :: sr => if lowerEq c d then matchTok tr sr else none

/-- Match tokens joined by `\s+` (at least one whitespace character
between consecutive tokens, maximal runs). -/
def matchToks : List (List Char) → List Char → Option (List Char)
  | [], s => some s
  | [t], s => matchTok t s
  | t :: t2 :: ts, s =>
    match matchTok t s with
    | some r =>
      let r2 := r.dropWhile isPySpace
      if r2.length < r.length then matchToks (t2 :: ts) r2 else none
    | none => none

/-- Lookahead `(?=({_BOUNDARY}|$))`. -/
def lookBoundary : List Char → Bool
  | [] => true
  | c :: _ => isBoundaryChar c

/-- One bare-token pattern from `_build_bare_token_patterns`:
`^\s*({inner})(?=({_BOUNDARY}|$))\s*(?P<rest>.*)$`. -/
def bareMatch (tokens : List (List Char)) (l : List Char) : Option (List Char) :=
  match matchToks tokens (l.dropWhile isPySpace) with
  | some r => if lookBoundary r then some (r.dropWhile isPySpace) else none
  | none => none

/-- `_build_bare_token_patterns`: user names first (skipping empty ones),
then the literal role tokens, each labelled with its public role. -/
def buildBarePats (couns client : String) : List (String × List (List Char)) :=
  let add (nm : String) (label : String) (acc : List (String × List (List Char))) :
      List (String × List (List Char)) :=
    let n := normalizeNameChars nm.data
    if n.isEmpty then acc else acc ++ [(label, splitWS n)]
  add "Client" "Client" (add "Couns" "Couns"
    (add client "Client" (add couns "Couns" [])))

/-- The scan of `pattern.sub` for `_whole_name_captor` patterns
`(^|{B})({inner})(?=({B}|$))`: at the string start the empty `^`
alternative is tried before the boundary-character alternative; a match
consumes its captured leading boundary character (kept by the replacement
function, which emits it before the replacement) plus the name; scanning
resumes after the match.  `fuel` bounds the scan (each step consumes at
least one character, so the text length suffices). -/
def subScan (tokens : List (List Char)) (repl : List Char) :
    Nat → Bool → List Char → List Char
  | 0, _, s => s
  | _ + 1, _, [] => []
  | fuel + 1, atStart, c :: t =>
    let m1 : Option (List Char × List Char) :=
      if atStart then
        match matchToks tokens (c :: t) with
        | some r => if lookBoundary r then some ([], r) else none
        | none => none
      else none
    let m2 : Option (List Char × List Char) :=
      match m1 with
      | some pr => some pr
      | none =>
        if isBoundaryChar c then
          match matchToks tokens t with
          | some r => if lookBoundary r then some ([c], r) else none
          | none => none
        else none
    match m2 with
    | some (pre, r) => pre ++ repl ++ subScan tokens repl fuel false r
    | none => c :: subScan tokens repl fuel false t

/-- `_safe_replace_whole_name` (lines 79-86): build the whole-name pattern
for the normalized name (no replacement at all when the name normalizes to
nothing) and substitute every whole occurrence, keeping the captured
leading boundary character. -/
def safeReplaceWholeName (text : String) (name : String) (repl : String) : String :=
  let tokens := splitWS (normalizeNameChars name.data)
  if tokens.isEmpty then text
  else ⟨subScan tokens repl.data text.data.length true text.data⟩

/-! ### Parser state and the per-line state machine of `parse_dialogue_text` -/

/-- One accumulated row during the scan: `Timestamp | Speaker | Quote`. -/
structure Row where
  timestamp : String
  speaker : String
  quote : String
deriving Repr, DecidableEq

/-- One output row after the final sweep, with the derived `Tag`. -/
structure FinalRow where
  timestamp : String
  speaker : String
  quote : String
  tag : String
deriving Repr, DecidableEq

/-- The carry state of the scan: accumulated rows plus the pending
speaker and pending timestamp. -/
structure ParseState where
  rows : List Row
  pendSp : Option String
  pendTs : Option String
deriving Repr, DecidableEq

/-- The per-parse configuration: normalized names, integral shift, bare
token patterns. -/
structure Cfg where
  couns : String
  client : String
  shift : Nat
  pats : List (String × List (List Char))
deriving Repr

/-- Python `rows[-1]`: the only genuinely partial list operation the
parser performs; modelled in `Except` so that the no-raise claim is about
real error paths. -/
def pyLast (l : List Row) : Except String Row :=
  match l.getLast? with
  | some r => .ok r
  | none => .error "list index out of range"

/-- `(a + " " + b).strip()`. -/
def joinStrip (a b : String) : String :=
  ⟨stripWS (a.data ++ ' ' :: b.data)⟩

/-- Python `str.casefold`, modelled at ASCII granularity. -/
def strLower (s : String) : String := ⟨s.data.map Char.toLower⟩

/-- `map_public` (lines 146-154): empty or absent names map to nothing;
otherwise compare the normalized, casefolded name against the counselor
name / literal role token, then the client side; unrecognized labels pass
through. -/
def mapPublic (couns client : String) : Option String → Option String
  | none => none
  | some nm =>
    if nm = "" then none
    else
      let n := strLower (normalizeNameInput nm)
      if n = strLower couns || n = "couns" then some "Couns"
      else if n = strLower client || n = "client" then some "Client"
      else some nm

/-- `_append_or_add` (lines 156-166): merge into the last row when it has
the same speaker (re-blanking the timestamp for the client role), else
append a new row.  The short-circuit of `rows and rows[-1][...] == ...`
is the emptiness test guarding the `rows[-1]` access. -/
def appendOrAdd (rows : List Row) (sp q ts : String) : Except String (List Row) :=
  if rows.isEmpty then .ok (rows ++ [{ timestamp := ts, speaker := sp, quote := q }])
  else
    match pyLast rows with
    | .error e => .error e
    | .ok r =>
      if r.speaker = sp then
        let r1 := { r with quote := joinStrip r.quote q }
        let r2 := if sp = "Client" then { r1 with timestamp := "" } else r1
        .ok (rows.dropLast ++ [r2])
      else .ok (rows ++ [{ timestamp := ts, speaker := sp, quote := q }])

/-- The materialization block repeated at lines 221-228, 247-255, 274-282,
302-310 and 327-333: map the pending speaker to its public label,
anonymize both names inside the quote, blank the timestamp for the client
role, append or merge, and clear both pending values. -/
def materialize (cfg : Cfg) (rows : List Row) (pSp pTs : Option String)
    (q0 : String) : Except String ParseState :=
  let spPub := (mapPublic cfg.couns cfg.client pSp).getD ""
  let q1 := safeReplaceWholeName q0 cfg.couns "Couns"
  let q2 := safeReplaceWholeName q1 cfg.client "Client"
  let ts := if spPub = "Client" then "" else pTs.getD ""
  match appendOrAdd rows spPub q2 ts with
  | .ok rows2 => .ok ⟨rows2, none, none⟩
  | .error e => .error e

/-- The shared body of cases D, E and F (lines 236-256, 263-283, 292-311):
an optional inline timestamp is cut out of the remainder and becomes the
pending timestamp (otherwise the previous pending timestamp is kept); a
meaningful cleaned remainder materializes a turn, otherwise only the
pending values change. -/
def speakerBlock (cfg : Cfg) (s : ParseState) (pSpRaw : String)
    (rest0 : List Char) : Except String ParseState :=
  let pts : Option String × List Char :=
    match findTs rest0 with
    | some m => (some (tsFromGroups m cfg.shift),
                 stripWS (m.before ++ ' ' :: m.after))
    | none => (s.pendTs, rest0)
  let q := cleanQuote pts.2
  if isMeaningful q then materialize cfg s.rows (some pSpRaw) pts.1 ⟨q⟩
  else .ok ⟨s.rows, some pSpRaw, pts.1⟩

/-- Case C (lines 207-229): `Name (timestamp) rest`, only taken when the
parenthesized token contains a timestamp; both pending values are set
before the remainder is considered. -/
def parenBlock (cfg : Cfg) (s : ParseState) (rawName : List Char)
    (pTsStr : String) (rest : List Char) : Except String ParseState :=
  let pSp := normalizeNameInput ⟨rawName⟩
  let q := cleanQuote rest
  if isMeaningful q then materialize cfg s.rows (some pSp) (some pTsStr) ⟨q⟩
  else .ok ⟨s.rows, some pSp, some pTsStr⟩

/-- Case G (lines 316-333): continuation.  A meaningful fragment merges
into the last row when one exists and no speaker is pending (leaving the
pending timestamp untouched), else it materializes with the pending
values. -/
def stepG (cfg : Cfg) (s : ParseState) (line : List Char) :
    Except String ParseState :=
  let q := cleanQuote line
  if !(isMeaningful q) then .ok s
  else if ¬s.rows.isEmpty ∧ s.pendSp = none then
    match pyLast s.rows with
    | .error e => .error e
    | .ok r =>
      let r1 := { r with quote := joinStrip r.quote ⟨q⟩ }
      let r2 := if r.speaker = "Client" then { r1 with timestamp := "" } else r1
      .ok ⟨s.rows.dropLast ++ [r2], s.pendSp, s.pendTs⟩
  else materialize cfg s.rows s.pendSp s.pendTs ⟨q⟩

/-- Case F (lines 286-314): first matching bare-token pattern wins. -/
def stepF (cfg : Cfg) (s : ParseState) (line : List Char) :
    List (String × List (List Char)) → Except String ParseState
  | [] => stepG cfg s line
  | (label, tokens) :: rest =>
    match bareMatch tokens line with
    | some r => speakerBlock cfg s label r
    | none => stepF cfg s line rest

/-- Case E (lines 259-283): `Name: rest` / `Name — rest`. -/
def stepE (cfg : Cfg) (s : ParseState) (line : List Char) :
    Except String ParseState :=
  match delimMatch line with
  | some (rawName, rest0) =>
    speakerBlock cfg s (normalizeNameInput ⟨rawName⟩) rest0
  | none => stepF cfg s line cfg.pats

/-- Case D (lines 232-256): `[Name] rest`. -/
def stepD (cfg : Cfg) (s : ParseState) (line : List Char) :
    Except String ParseState :=
  match bracketMatch line with
  | some (rawName, rest0) =>
    speakerBlock cfg s (normalizeNameInput ⟨rawName⟩) rest0
  | none => stepE cfg s line

/-- Case C dispatch (lines 207-229): a paren match whose parenthesized
token contains no timestamp falls through to case D. -/
def stepC (cfg : Cfg) (s : ParseState) (line : List Char) :
    Except String ParseState :=
  match parenMatch line with
  | some (rawName, tsTok, rest) =>
    match findTs tsTok with
    | some m => parenBlock cfg s rawName (tsFromGroups m cfg.shift) rest
    | none => stepD cfg s line
  | none => stepD cfg s line

/-- Case B (lines 192-204): a line that is not meaningful once its first
timestamp is removed only carries the timestamp forward. -/
def stepB (cfg : Cfg) (s : ParseState) (line : List Char) :
    Except String ParseState :=
  match findTs line with
  | some m =>
    let leftover := stripWS (m.before ++ ' ' :: m.after)
    let leftoverClean :=
      stripWS (collapseWS (stripChars wrapChars (dropLeadPunct leftover)))
    if !(isMeaningful leftoverClean) then
      .ok ⟨s.rows, s.pendSp, some (tsFromGroups m cfg.shift)⟩
    else stepC cfg s line
  | none => stepC cfg s line

/-- One iteration of the main loop (lines 168-333): normalize the raw
line, then try the cases in priority order. -/
def step (cfg : Cfg) (s : ParseState) (raw : List Char) :
    Except String ParseState :=
  let line := stripWS (replaceAll ['\uFEFF'] []
    (normalizeMojibake (htmlUnescape raw)))
  if line.isEmpty then .ok s
  else if ("WEBVTT".data).isPrefixOf (line.map Char.toUpper) then .ok s
  else if hasCueArrow line then
    match findTs line with
    | some m => .ok ⟨s.rows, s.pendSp, some (tsFromGroups m cfg.shift)⟩
    | none => .ok s
  else stepB cfg s line

/-- `collapse_consecutive_rows` (lines 336-345): one linear pass merging
adjacent same-speaker rows (blanking the client role's timestamp). -/
def collapseStep (merged : List Row) (r : Row) : List Row :=
  match merged.getLast? with
  | some m =>
    if m.speaker = r.speaker then
      let m1 := if m.speaker = "Client" then { m with timestamp := "" } else m
      merged.dropLast ++ [{ m1 with quote := joinStrip m1.quote r.quote }]
    else merged ++ [r]
  | none => merged ++ [r]

def collapseRows (rows : List Row) : List Row :=
  rows.foldl collapseStep []

/-- The final sweep (lines 354-357): blank every client timestamp and
derive the tag. -/
def finalizeRow (r : Row) : FinalRow :=
  { timestamp := if r.speaker = "Client" then "" else r.timestamp
    speaker := r.speaker
    quote := r.quote
    tag := if r.speaker = "Couns" ∧ wc r.quote ≤ 3 then "ME" else "" }

/-- Python `str.splitlines` (the terminators the parser can meet in plain
text): `\r\n`, `\n`, `\r`, `\v`, `\f`. -/
def isLineTerm (c : Char) : Bool :=
  c = '\n' || c = '\r' || c = '\x0b' || c = '\x0c'

def splitLinesAux (cur : List Char) : List Char → List (List Char)
  | [] => if cur.isEmpty then [] else [cur.reverse]
  | '\r' :: '\n' :: t => cur.reverse :: splitLinesAux [] t
  | c :: t =>
    if isLineTerm c then cur.reverse :: splitLinesAux [] t
    else splitLinesAux (c :: cur) t

def splitLines (l : List Char) : List (List Char) := splitLinesAux [] l

/-- The main loop over the physical lines. -/
def runLines (cfg : Cfg) (s : ParseState) :
    List (List Char) → Except String ParseState
  | [] => .ok s
  | l :: ls =>
    match step cfg s l with
    | .ok s' => runLines cfg s' ls
    | .error e => .error e

/-- `parse_dialogue_text` (lines 115-360), returning the ordered output
rows; the trace log is omitted (pure debugging output). -/
def parseE (text couns client : String) (shift : Nat) :
    Except String (List FinalRow) :=
  let cN := normalizeNameInput couns
  let cL := normalizeNameInput client
  let cfg : Cfg := ⟨cN, cL, shift, buildBarePats cN cL⟩
  match runLines cfg ⟨[], none, none⟩ (splitLines text.data) with
  | .ok fin => .ok ((collapseRows fin.rows).map finalizeRow)
  | .error e => .error e

/-- The parser's result as a plain list (empty on the impossible error
path). -/
def parseRows (text couns client : String) (shift : Nat) : List FinalRow :=
  match parseE text couns client shift with
  | .ok rows => rows
  | .error _ => []

/-! ### Predicates used by the claims -/

/-- A displayed timestamp of the shape `_to_mmss` produces: two
colon-separated components, the second strictly below sixty. -/
def isMMSS (ts : String) : Prop :=
  ∃ m s, s < 60 ∧ ts = ⟨pad2 m ++ ':' :: pad2 s⟩

/-- A row timestamp is either empty or of `_to_mmss` shape. -/
def TsOk (ts : String) : Prop := ts = "" ∨ isMMSS ts

def RowsOk (rows : List Row) : Prop := ∀ r ∈ rows, TsOk r.timestamp

/-- The scan invariant: accumulated rows carry empty or `MM:SS`
timestamps, and so does the pending timestamp. -/
def StInv (s : ParseState) : Prop :=
  RowsOk s.rows ∧ ∀ t, s.pendTs = some t → isMMSS t

/-- The three possible effects of one line on the parser state: rows
untouched; a materialization, which clears both pending values; or the
continuation merge, which requires and preserves an absent pending speaker,
keeps the pending timestamp, and does not change the number of rows. -/
def StepCases (s s' : ParseState) : Prop :=
  s'.rows = s.rows
  ∨ (s'.pendSp = none ∧ s'.pendTs = none)
  ∨ (s.pendSp = none ∧ s'.pendSp = none ∧ s'.pendTs = s.pendTs ∧
     s'.rows.length = s.rows.length)

/-- The timestamp normalization that the specification describes for a
three-component token, written from the spec: the hours component is
added as `hours*3600`, the shift subtracted and clamped at zero, and the
result shown as `HH:MM:SS` when large enough to need an hours field, as
zero-padded `MM:SS` otherwise. -/
def specNormalize3 (hh mm ss shift : Nat) : String :=
  let total := hh * 3600 + mm * 60 + ss - shift
  if total < 3600 then ⟨pad2 (total / 60) ++ ':' :: pad2 (total % 60)⟩
  else ⟨pad2 (total / 3600) ++ ':' ::
        (pad2 (total % 3600 / 60) ++ ':' :: pad2 (total % 60))⟩

/-! ## Lemmas: decimal formatting -/

theorem charOfNat_digit : ∀ k, k < 10 → (Char.ofNat (48 + k)).isDigit = true := by
  decide

theorem natDigitsAux_digits :
    ∀ f n, n < f → ∀ c ∈ natDigitsAux f n, c.isDigit = true := by
  intro f
  induction f with
  | zero => intro n h; omega
  | succ f ih =>
    intro n h c hc
    by_cases h10 : n < 10
    · simp only [natDigitsAux, if_pos h10, List.mem_singleton] at hc
      subst hc
      exact charOfNat_digit n h10
    · simp only [natDigitsAux, if_neg h10, List.mem_append,
        List.mem_singleton] at hc
      rcases hc with hc | hc
      · have hlt : n / 10 < f := by
          have := Nat.div_lt_self (show 0 < n by omega) (show 1 < 10 by omega)
          omega
        exact ih (n / 10) hlt c hc
      · subst hc
        exact charOfNat_digit (n % 10) (Nat.mod_lt _ (by omega))

theorem natDigits_digits (n : Nat) : ∀ c ∈ natDigits n, c.isDigit = true :=
  natDigitsAux_digits (n + 1) n (Nat.lt_succ_self n)

theorem pad2_digits (n : Nat) : ∀ c ∈ pad2 n, c.isDigit = true := by
  intro c hc
  by_cases h : n < 10
  · simp only [pad2, if_pos h, List.mem_cons] at hc
    rcases hc with hc | hc
    · subst hc; decide
    · exact natDigits_digits n c hc
  · simp only [pad2, if_neg h] at hc
    exact natDigits_digits n c hc

theorem natDigitsAux_ne_nil : ∀ f n, n < f → natDigitsAux f n ≠ [] := by
  intro f n h
  cases f with
  | zero => omega
  | succ f =>
    by_cases h10 : n < 10
    · simp [natDigitsAux, h10]
    · simp [natDigitsAux, h10]

theorem pad2_length (n : Nat) : 2 ≤ (pad2 n).length := by
  by_cases h : n < 10
  · have h1 : natDigits n = [Char.ofNat (48 + n)] := by
      simp [natDigits, natDigitsAux, h]
    simp [pad2, h, h1]
  · have h2 : natDigits n = natDigitsAux n (n / 10) ++ [Char.ofNat (48 + n % 10)] := by
      simp [natDigits, natDigitsAux, h]
    have h3 : natDigitsAux n (n / 10) ≠ [] := by
      apply natDigitsAux_ne_nil
      have := Nat.div_lt_self (show 0 < n by omega) (show 1 < 10 by omega)
      omega
    have h4 : 1 ≤ (natDigitsAux n (n / 10)).length :=
      List.length_pos.mpr h3
    simp only [pad2, if_neg h, h2, List.length_append, List.length_singleton]
    omega

theorem toMmss_isMMSS (mm ss shift : Nat) : isMMSS (toMmss mm ss shift) :=
  ⟨(mm * 60 + ss - shift) / 60, (mm * 60 + ss - shift) % 60,
    Nat.mod_lt _ (by omega), rfl⟩

theorem tsFromGroups_isMMSS (m : TsFound) (shift : Nat) :
    isMMSS (tsFromGroups m shift) := by
  unfold tsFromGroups
  cases m.g3 with
  | none => exact toMmss_isMMSS m.g1 m.g2 shift
  | some s3 => exact toMmss_isMMSS m.g2 s3 shift

/-! ## Lemmas: the per-line state machine never errors and preserves the
timestamp invariant -/

theorem mem_of_getLast?_row {l : List Row} {a : Row} (h : l.getLast? = some a) :
    a ∈ l := by
  have hne : l ≠ [] := by intro h0; subst h0; simp at h
  rw [List.getLast?_eq_getLast_of_ne_nil hne] at h
  cases h
  exact List.getLast_mem hne

theorem pyLast_eq_ok (rows : List Row) (hne : rows ≠ []) :
    pyLast rows = .ok (rows.getLast hne) := by
  simp [pyLast, List.getLast?_eq_getLast_of_ne_nil hne]

theorem RowsOk_append (rows : List Row) (x : Row) (hr : RowsOk rows)
    (hx : TsOk x.timestamp) : RowsOk (rows ++ [x]) := by
  intro r hm
  rcases List.mem_append.mp hm with hm | hm
  · exact hr r hm
  · rw [List.mem_singleton] at hm
    subst hm
    exact hx

theorem RowsOk_dropLast_append (rows : List Row) (x : Row) (hr : RowsOk rows)
    (hx : TsOk x.timestamp) : RowsOk (rows.dropLast ++ [x]) := by
  intro r hm
  rcases List.mem_append.mp hm with hm | hm
  · exact hr r ((List.dropLast_sublist rows).subset hm)
  · rw [List.mem_singleton] at hm
    subst hm
    exact hx

theorem appendOrAdd_spec (rows : List Row) (sp q ts : String) :
    ∃ rows2, appendOrAdd rows sp q ts = .ok rows2 ∧
      (RowsOk rows → TsOk ts → RowsOk rows2) := by
  by_cases he : rows.isEmpty
  · refine ⟨rows ++ [{ timestamp := ts, speaker := sp, quote := q }], ?_, ?_⟩
    · simp [appendOrAdd, he]
    · intro hr hts
      exact RowsOk_append rows _ hr hts
  · have hne : rows ≠ [] := by
      intro h0
      subst h0
      simp at he
    have hl := pyLast_eq_ok rows hne
    by_cases hsp : (rows.getLast hne).speaker = sp
    · refine ⟨rows.dropLast ++
        [if sp = "Client"
         then { rows.getLast hne with
                quote := joinStrip (rows.getLast hne).quote q, timestamp := "" }
         else { rows.getLast hne with
                quote := joinStrip (rows.getLast hne).quote q }], ?_, ?_⟩
      · by_cases hc : sp = "Client" <;>
          simp [appendOrAdd, he, hl, hsp, hc]
      · intro hr _
        apply RowsOk_dropLast_append rows _ hr
        have hlast : TsOk (rows.getLast hne).timestamp :=
          hr _ (List.getLast_mem hne)
        by_cases hc : sp = "Client"
        · simp [hc, TsOk]
        · simpa [hc] using hlast
    · refine ⟨rows ++ [{ timestamp := ts, speaker := sp, quote := q }], ?_, ?_⟩
      · simp [appendOrAdd, he, hl, hsp]
      · intro hr hts
        exact RowsOk_append rows _ hr hts

theorem materialize_spec (cfg : Cfg) (rows : List Row) (pSp pTs : Option String)
    (q0 : String) :
    ∃ s', materialize cfg rows pSp pTs q0 = .ok s' ∧
      s'.pendSp = none ∧ s'.pendTs = none ∧
      (RowsOk rows → (∀ t, pTs = some t → isMMSS t) → RowsOk s'.rows) := by
  obtain ⟨rows2, h2, hinv⟩ := appendOrAdd_spec rows
    ((mapPublic cfg.couns cfg.client pSp).getD "")
    (safeReplaceWholeName (safeReplaceWholeName q0 cfg.couns "Couns")
      cfg.client "Client")
    (if (mapPublic cfg.couns cfg.client pSp).getD "" = "Client" then ""
     else pTs.getD "")
  refine ⟨⟨rows2, none, none⟩, ?_, rfl, rfl, ?_⟩
  · simp only [materialize, h2]
  · intro hr hp
    apply hinv hr
    by_cases hc : (mapPublic cfg.couns cfg.client pSp).getD "" = "Client"
    · simp [hc, TsOk]
    · simp only [hc, if_false]
      cases hpt : pTs with
      | none => simp [TsOk]
      | some t => exact Or.inr (by simpa using hp t hpt)

/-- The step-level specification bundle: success, invariant preservation
and the effect shape. -/
def StepSpec (s : ParseState) (e : Except String ParseState) : Prop :=
  ∃ s', e = .ok s' ∧ (StInv s → StInv s') ∧ StepCases s s'

theorem materialize_stepSpec (cfg : Cfg) (s : ParseState) (pTs : Option String)
    (q0 : String) (hp : StInv s → ∀ t, pTs = some t → isMMSS t)
    (pSp : Option String) :
    StepSpec s (materialize cfg s.rows pSp pTs q0) := by
  obtain ⟨s', h, hsp, hts, hinv⟩ := materialize_spec cfg s.rows pSp pTs q0
  refine ⟨s', h, ?_, Or.inr (Or.inl ⟨hsp, hts⟩)⟩
  intro hi
  refine ⟨hinv hi.1 (hp hi), ?_⟩
  intro t ht
  rw [hts] at ht
  cases ht

theorem speakerBlock_spec (cfg : Cfg) (s : ParseState) (pSpRaw : String)
    (rest0 : List Char) : StepSpec s (speakerBlock cfg s pSpRaw rest0) := by
  unfold speakerBlock
  cases hf : findTs rest0 with
  | none =>
    simp only
    by_cases hm : isMeaningful (cleanQuote rest0) = true
    · simp only [hm, if_true]
      exact materialize_stepSpec cfg s s.pendTs _ (fun hi => hi.2) _
    · simp only [hm, if_false]
      refine ⟨⟨s.rows, some pSpRaw, s.pendTs⟩, rfl, ?_, Or.inl rfl⟩
      intro hi
      exact ⟨hi.1, hi.2⟩
  | some m =>
    simp only
    by_cases hm : isMeaningful (cleanQuote (stripWS (m.before ++ ' ' :: m.after))) = true
    · simp only [hm, if_true]
      exact materialize_stepSpec cfg s (some (tsFromGroups m cfg.shift)) _
        (fun _ t ht => by
          cases ht
          exact tsFromGroups_isMMSS m cfg.shift) _
    · simp only [hm, if_false]
      refine ⟨_, rfl, ?_, Or.inl rfl⟩
      intro hi
      refine ⟨hi.1, ?_⟩
      intro t ht
      cases ht
      exact tsFromGroups_isMMSS m cfg.shift

theorem parenBlock_spec (cfg : Cfg) (s : ParseState) (rawName : List Char)
    (pTsStr : String) (hts : isMMSS pTsStr) (rest : List Char) :
    StepSpec s (parenBlock cfg s rawName pTsStr rest) := by
  unfold parenBlock
  by_cases hm : isMeaningful (cleanQuote rest) = true
  · simp only [hm, if_true]
    exact materialize_stepSpec cfg s (some pTsStr) _
      (fun _ t ht => by cases ht; exact hts) _
  · simp only [hm, if_false]
    refine ⟨_, rfl, ?_, Or.inl rfl⟩
    intro hi
    refine ⟨hi.1, ?_⟩
    intro t ht
    cases ht
    exact hts

theorem stepG_spec (cfg : Cfg) (s : ParseState) (line : List Char) :
    StepSpec s (stepG cfg s line) := by
  unfold stepG
  by_cases hm : isMeaningful (cleanQuote line) = true
  · simp only [hm, Bool.not_true, Bool.false_eq_true, if_false]
    by_cases hcond : ¬s.rows.isEmpty = true ∧ s.pendSp = none
    · simp only [hcond, if_true]
      have hne : s.rows ≠ [] := by
        intro h0
        exact hcond.1 (by simp [h0])
      have hl := pyLast_eq_ok s.rows hne
      rw [hl]
      refine ⟨_, rfl, ?_, ?_⟩
      · intro hi
        constructor
        · apply RowsOk_dropLast_append s.rows _ hi.1
          have hlast : TsOk (s.rows.getLast hne).timestamp :=
            hi.1 _ (List.getLast_mem hne)
          by_cases hc : (s.rows.getLast hne).speaker = "Client"
          · simp [hc, TsOk]
          · simpa [hc] using hlast
        · exact hi.2
      · refine Or.inr (Or.inr ⟨hcond.2, rfl, rfl, ?_⟩)
        simp only [List.length_append, List.length_dropLast,
          List.length_singleton]
        have : 1 ≤ s.rows.length := List.length_pos.mpr hne
        omega
    · simp only [hcond, if_false]
      exact materialize_stepSpec cfg s s.pendTs _ (fun hi => hi.2) _
  · simp only [hm, Bool.not_false]
    refine ⟨s, by simp, ?_, Or.inl rfl⟩
    exact id

theorem stepF_spec (cfg : Cfg) (s : ParseState) (line : List Char) :
    ∀ pats, StepSpec s (stepF cfg s line pats) := by
  intro pats
  induction pats with
  | nil => exact stepG_spec cfg s line
  | cons p rest ih =>
    unfold stepF
    cases hb : bareMatch p.2 line with
    | none => exact ih
    | some r => exact speakerBlock_spec cfg s p.1 r

theorem stepE_spec (cfg : Cfg) (s : ParseState) (line : List Char) :
    StepSpec s (stepE cfg s line) := by
  unfold stepE
  cases hd : delimMatch line with
  | none => exact stepF_spec cfg s line cfg.pats
  | some pr => exact speakerBlock_spec cfg s _ pr.2

theorem stepD_spec (cfg : Cfg) (s : ParseState) (line : List Char) :
    StepSpec s (stepD cfg s line) := by
  unfold stepD
  cases hb : bracketMatch line with
  | none => exact stepE_spec cfg s line
  | some pr => exact speakerBlock_spec cfg s _ pr.2

theorem stepC_spec (cfg : Cfg) (s : ParseState) (line : List Char) :
    StepSpec s (stepC cfg s line) := by
  unfold stepC
  cases hp : parenMatch line with
  | none => exact stepD_spec cfg s line
  | some pr =>
    obtain ⟨rawName, tsTok, rest⟩ := pr
    simp only
    cases hf : findTs tsTok with
    | none => exact stepD_spec cfg s line
    | some m =>
      exact parenBlock_spec cfg s rawName (tsFromGroups m cfg.shift)
        (tsFromGroups_isMMSS m cfg.shift) rest

theorem stepB_spec (cfg : Cfg) (s : ParseState) (line : List Char) :
    StepSpec s (stepB cfg s line) := by
  unfold stepB
  cases hf : findTs line with
  | none => exact stepC_spec cfg s line
  | some m =>
    simp only
    by_cases hm : isMeaningful (stripWS (collapseWS (stripChars wrapChars
        (dropLeadPunct (stripWS (m.before ++ ' ' :: m.after)))))) = true
    · simp only [hm, Bool.not_true, Bool.false_eq_true, if_false]
      exact stepC_spec cfg s line
    · simp only [hm, Bool.not_false, if_true]
      refine ⟨_, rfl, ?_, Or.inl rfl⟩
      intro hi
      refine ⟨hi.1, ?_⟩
      intro t ht
      cases ht
      exact tsFromGroups_isMMSS m cfg.shift

theorem step_spec (cfg : Cfg) (s : ParseState) (raw : List Char) :
    StepSpec s (step cfg s raw) := by
  unfold step
  by_cases he : (stripWS (replaceAll ['﻿'] []
      (normalizeMojibake (htmlUnescape raw)))).isEmpty = true
  · simp only [he, if_true]
    exact ⟨s, rfl, id, Or.inl rfl⟩
  · simp only [he, Bool.false_eq_true, if_false]
    by_cases hw : ("WEBVTT".data).isPrefixOf ((stripWS (replaceAll ['﻿'] []
        (normalizeMojibake (htmlUnescape raw)))).map Char.toUpper) = true
    · simp only [hw, if_true]
      exact ⟨s, rfl, id, Or.inl rfl⟩
    · simp only [hw, Bool.false_eq_true, if_false]
      by_cases hc : hasCueArrow (stripWS (replaceAll ['﻿'] []
          (normalizeMojibake (htmlUnescape raw)))) = true
      · simp only [hc, if_true]
        cases hf : findTs (stripWS (replaceAll ['﻿'] []
            (normalizeMojibake (htmlUnescape raw)))) with
        | none => exact ⟨s, rfl, id, Or.inl rfl⟩
        | some m =>
          refine ⟨_, rfl, ?_, Or.inl rfl⟩
          intro hi
          refine ⟨hi.1, ?_⟩
          intro t ht
          cases ht
          exact tsFromGroups_isMMSS m cfg.shift
      · simp only [hc, Bool.false_eq_true, if_false]
        exact stepB_spec cfg s _

theorem runLines_spec (cfg : Cfg) :
    ∀ lines s, StInv s →
      ∃ s', runLines cfg s lines = .ok s' ∧ StInv s' := by
  intro lines
  induction lines with
  | nil => exact fun s hi => ⟨s, rfl, hi⟩
  | cons l ls ih =>
    intro s hi
    obtain ⟨s1, h1, hinv, _⟩ := step_spec cfg s l
    obtain ⟨s2, h2, hi2⟩ := ih s1 (hinv hi)
    exact ⟨s2, by simp [runLines, h1, h2], hi2⟩

/-! ## Lemmas: whole-parse success and output shape -/

theorem parseE_spec (text couns client : String) (shift : Nat) :
    ∃ fin, StInv fin ∧
      parseE text couns client shift =
        .ok ((collapseRows fin.rows).map finalizeRow) := by
  have hinit : StInv ⟨[], none, none⟩ := by
    constructor
    · intro r hm
      cases hm
    · intro t ht
      cases ht
  obtain ⟨fin, hrun, hi⟩ := runLines_spec
    ⟨normalizeNameInput couns, normalizeNameInput client, shift,
      buildBarePats (normalizeNameInput couns) (normalizeNameInput client)⟩
    (splitLines text.data) ⟨[], none, none⟩ hinit
  exact ⟨fin, hi, by simp only [parseE, hrun]⟩

theorem parseRows_shape (text couns client : String) (shift : Nat) :
    ∃ rows0 : List Row,
      parseRows text couns client shift = rows0.map finalizeRow := by
  obtain ⟨fin, _, h⟩ := parseE_spec text couns client shift
  exact ⟨collapseRows fin.rows, by simp [parseRows, h]⟩

/-! ## Lemmas: the consolidation pass -/

theorem collapseStep_RowsOk (merged : List Row) (r : Row)
    (hm : RowsOk merged) (hr : TsOk r.timestamp) :
    RowsOk (collapseStep merged r) := by
  unfold collapseStep
  cases hl : merged.getLast? with
  | none => exact RowsOk_append merged r hm hr
  | some m =>
    simp only
    by_cases hsp : m.speaker = r.speaker
    · simp only [hsp, if_true]
      apply RowsOk_dropLast_append merged _ hm
      have hmem : TsOk m.timestamp := hm m (mem_of_getLast?_row hl)
      by_cases hc : r.speaker = "Client"
      · simp [hc, TsOk]
      · simpa [hc] using hmem
    · simp only [hsp, if_false]
      exact RowsOk_append merged r hm hr

theorem collapseRows_RowsOk (rows : List Row) (h : RowsOk rows) :
    RowsOk (collapseRows rows) := by
  suffices hgen : ∀ rows acc, RowsOk rows → RowsOk acc →
      RowsOk (rows.foldl collapseStep acc) by
    exact hgen rows [] h (by intro r hm; cases hm)
  intro rows
  induction rows with
  | nil => exact fun acc _ ha => ha
  | cons r rs ih =>
    intro acc hr ha
    exact ih _ (fun x hx => hr x (List.mem_cons_of_mem r hx))
      (collapseStep_RowsOk acc r ha (hr r (List.mem_cons_self r rs)))

/-- Adjacent rows of the consolidated list have distinct speakers. -/
theorem collapseStep_chain (merged : List Row) (r : Row)
    (h : merged.Chain' (fun a b => a.speaker ≠ b.speaker)) :
    (collapseStep merged r).Chain' (fun a b => a.speaker ≠ b.speaker) := by
  unfold collapseStep
  cases hl : merged.getLast? with
  | none =>
    have : merged = [] := List.getLast?_eq_none_iff.mp hl
    subst this
    simp
  | some m =>
    simp only
    by_cases hsp : m.speaker = r.speaker
    · simp only [hsp, if_true]
      have hsplit : merged.dropLast ++ [m] = merged :=
        List.dropLast_append_getLast? m hl
      rw [← hsplit] at h
      rcases List.chain'_append.mp h with ⟨h1, _, h3⟩
      apply List.chain'_append.mpr
      refine ⟨h1, List.chain'_singleton _, ?_⟩
      intro x hx y hy
      simp only [List.head?_cons, Option.mem_def, Option.some.injEq] at hy
      subst hy
      have hxm := h3 x hx m (by simp)
      rw [hsp] at hxm
      by_cases hc : r.speaker = "Client"
      · simpa [hc] using hxm
      · simpa [hc, hsp] using hxm
    · simp only [hsp, if_false]
      apply List.chain'_append.mpr
      refine ⟨h, List.chain'_singleton _, ?_⟩
      intro x hx y hy
      simp only [List.head?_cons, Option.mem_def, Option.some.injEq] at hy
      subst hy
      rw [Option.mem_def, hl, Option.some.injEq] at hx
      subst hx
      exact hsp

theorem collapseRows_chain (rows : List Row) :
    (collapseRows rows).Chain' (fun a b => a.speaker ≠ b.speaker) := by
  suffices hgen : ∀ rows acc : List Row,
      acc.Chain' (fun a b : Row => a.speaker ≠ b.speaker) →
      (rows.foldl collapseStep acc).Chain' (fun a b => a.speaker ≠ b.speaker) by
    exact hgen rows [] (List.chain'_nil)
  intro rows
  induction rows with
  | nil => exact fun acc ha => ha
  | cons r rs ih => exact fun acc ha => ih _ (collapseStep_chain acc r ha)

/-! ## Claim theorems -/

/-- C2: for every input text, counselor name, client name and shift, every
turn returned by `parse_dialogue_text` whose speaker is the client role
has an empty timestamp. -/
theorem C2_theorem (text couns client : String) (shift : Nat)
    (r : FinalRow) (hr : r ∈ parseRows text couns client shift)
    (hsp : r.speaker = "Client") : r.timestamp = "" := by
  obtain ⟨rows0, hshape⟩ := parseRows_shape text couns client shift
  rw [hshape] at hr
  obtain ⟨x, _, rfl⟩ := List.mem_map.mp hr
  have hx : x.speaker = "Client" := hsp
  simp [finalizeRow, hx]

/-- C2 witness: the theorem applied to a concrete parse that produces a
client turn. -/
theorem C2_witness :
    (FinalRow.mk "" "Client" "hello there" "").timestamp = "" :=
  C2_theorem "Sam: hello there" "Jane" "Sam" 0
    (FinalRow.mk "" "Client" "hello there" "") (by decide) (by decide)

/-- C3: a turn's tag equals the fixed marker `"ME"` exactly when its
speaker is the counselor role and its quote has at most three
whitespace-delimited words; otherwise the tag is empty. -/
theorem C3_theorem (text couns client : String) (shift : Nat)
    (r : FinalRow) (hr : r ∈ parseRows text couns client shift) :
    (r.tag = "ME" ↔ (r.speaker = "Couns" ∧ wc r.quote ≤ 3)) ∧
    (¬(r.speaker = "Couns" ∧ wc r.quote ≤ 3) → r.tag = "") := by
  obtain ⟨rows0, hshape⟩ := parseRows_shape text couns client shift
  rw [hshape] at hr
  obtain ⟨x, _, rfl⟩ := List.mem_map.mp hr
  by_cases hc : x.speaker = "Couns" ∧ wc x.quote ≤ 3
  · constructor
    · simp [finalizeRow, hc]
    · intro h
      exact absurd hc h
  · constructor
    · show (finalizeRow x).tag = "ME" ↔ _
      simp only [finalizeRow, if_neg hc]
      constructor
      · intro h
        exact absurd h (by decide)
      · intro h
        exact absurd h hc
    · intro _
      show (finalizeRow x).tag = ""
      simp [finalizeRow, hc]

/-- C3 witness: the theorem applied to a concrete short counselor turn. -/
theorem C3_witness :
    ((FinalRow.mk "" "Couns" "Okay" "ME").tag = "ME" ↔
      ((FinalRow.mk "" "Couns" "Okay" "ME").speaker = "Couns" ∧
        wc (FinalRow.mk "" "Couns" "Okay" "ME").quote ≤ 3)) ∧
    (¬((FinalRow.mk "" "Couns" "Okay" "ME").speaker = "Couns" ∧
        wc (FinalRow.mk "" "Couns" "Okay" "ME").quote ≤ 3) →
      (FinalRow.mk "" "Couns" "Okay" "ME").tag = "") :=
  C3_theorem "Jane: Okay" "Jane" "Sam" 0
    (FinalRow.mk "" "Couns" "Okay" "ME") (by decide)

/-- C4: no two adjacent turns in the final output share the same speaker
label. -/
theorem C4_theorem (text couns client : String) (shift : Nat) :
    (parseRows text couns client shift).Chain'
      (fun a b => a.speaker ≠ b.speaker) := by
  obtain ⟨fin, _, h⟩ := parseE_spec text couns client shift
  simp only [parseRows, h]
  apply (List.chain'_map finalizeRow).mpr
  exact collapseRows_chain fin.rows

/-- C9: the parser returns normally on every input: the `Except`-modelled
embedding, whose only error paths are the raw `rows[-1]` accesses, always
succeeds. -/
theorem C9_theorem (text couns client : String) (shift : Nat) :
    ∃ out, parseE text couns client shift = .ok out := by
  obtain ⟨fin, _, h⟩ := parseE_spec text couns client shift
  exact ⟨_, h⟩

/-- C10: every non-empty output timestamp is a two-component
`minutes:seconds` string (both components all-digit and zero-padded to
width at least two, so a three-component `HH:MM:SS` string is never
produced), the seconds component is below sixty, and totals of an hour or
more surface as a minutes field of sixty or more. -/
theorem C10_theorem (text couns client : String) (shift : Nat)
    (r : FinalRow) (hr : r ∈ parseRows text couns client shift) :
    r.timestamp = "" ∨
      ∃ m s, s < 60 ∧ r.timestamp = ⟨pad2 m ++ ':' :: pad2 s⟩ ∧
        (∀ c ∈ pad2 m, c.isDigit = true) ∧
        (∀ c ∈ pad2 s, c.isDigit = true) ∧
        2 ≤ (pad2 m).length ∧ 2 ≤ (pad2 s).length ∧
        (3600 ≤ m * 60 + s → 60 ≤ m) := by
  obtain ⟨fin, hinv, h⟩ := parseE_spec text couns client shift
  rw [show parseRows text couns client shift =
      (collapseRows fin.rows).map finalizeRow by simp [parseRows, h]] at hr
  obtain ⟨x, hx, rfl⟩ := List.mem_map.mp hr
  have hx' : TsOk x.timestamp := collapseRows_RowsOk fin.rows hinv.1 x hx
  have hts : TsOk (finalizeRow x).timestamp := by
    by_cases hc : x.speaker = "Client"
    · simp [finalizeRow, hc, TsOk]
    · simpa [finalizeRow, hc] using hx'
  rcases hts with h0 | ⟨m, s, hs, heq⟩
  · exact Or.inl h0
  · refine Or.inr ⟨m, s, hs, heq, pad2_digits m, pad2_digits s,
      pad2_length m, pad2_length s, ?_⟩
    intro hge
    omega

/-- C10 witness: the theorem applied to a concrete parse carrying a
timestamped counselor turn. -/
theorem C10_witness :
    (FinalRow.mk "05:12" "Couns" "Hello there" "ME").timestamp = "" ∨
      ∃ m s, s < 60 ∧
        (FinalRow.mk "05:12" "Couns" "Hello there" "ME").timestamp =
          ⟨pad2 m ++ ':' :: pad2 s⟩ ∧
        (∀ c ∈ pad2 m, c.isDigit = true) ∧
        (∀ c ∈ pad2 s, c.isDigit = true) ∧
        2 ≤ (pad2 m).length ∧ 2 ≤ (pad2 s).length ∧
        (3600 ≤ m * 60 + s → 60 ≤ m) :=
  C10_theorem "[Jane D] 05:12 Hello there" "Jane D" "Sam" 0
    (FinalRow.mk "05:12" "Couns" "Hello there" "ME") (by decide)

/-- C1 counterexample: on the three-component token `01:00:00` with zero
shift the code discards the hours component and yields `"00:00"`, while
the specified conversion (hours added as `hours*3600`) yields a display of
3600 seconds. -/
theorem C1_counterexample :
    tsFromGroups ⟨1, 0, some 0, [], []⟩ 0 = "00:00" ∧
    specNormalize3 1 0 0 0 = "01:00:00" ∧
    ("00:00" : String) ≠ "01:00:00" :=
  ⟨by decide, by decide, by decide⟩

/-- C1 (amended): for a three-component token the hours component is
discarded, not added: the result coincides with the two-component
conversion of the last two components; that conversion subtracts the
shift, clamps at zero (a shift at least the token's value yields
`"00:00"`), and always reformats as zero-padded `MM:SS`. -/
theorem C1_theorem (hh mm ss shift : Nat) (b a : List Char) :
    tsFromGroups ⟨hh, mm, some ss, b, a⟩ shift = toMmss mm ss shift ∧
    toMmss mm ss shift =
      ⟨pad2 ((mm * 60 + ss - shift) / 60) ++ ':' ::
        pad2 ((mm * 60 + ss - shift) % 60)⟩ ∧
    (mm * 60 + ss ≤ shift → toMmss mm ss shift = "00:00") := by
  refine ⟨rfl, rfl, ?_⟩
  intro hle
  have hz : mm * 60 + ss - shift = 0 := by omega
  simp only [toMmss, hz]
  decide

/-- C1 witness: the amended theorem applied with the shift exceeding the
token's value. -/
theorem C1_witness :
    tsFromGroups ⟨3, 4, some 5, [], []⟩ 1000 = toMmss 4 5 1000 ∧
    toMmss 4 5 1000 =
      ⟨pad2 ((4 * 60 + 5 - 1000) / 60) ++ ':' ::
        pad2 ((4 * 60 + 5 - 1000) % 60)⟩ ∧
    toMmss 4 5 1000 = "00:00" :=
  ⟨(C1_theorem 3 4 5 1000 [] []).1, (C1_theorem 3 4 5 1000 [] []).2.1,
    (C1_theorem 3 4 5 1000 [] []).2.2 (by decide)⟩

/-- C5 counterexample: the input `"Hello"` (no recognizable speaker
attribution anywhere, and an orphan continuation fragment) does not yield
an empty sequence: the fragment is materialized as a turn with an empty
speaker label rather than silently dropped. -/
theorem C5_counterexample :
    parseRows "Hello" "Jane" "Sam" 0 ≠ [] := by decide

/-- C5 (amended): empty input yields an empty sequence, and no error, for
every pair of names and every shift; but an orphan continuation fragment
is not dropped: it produces one turn whose speaker label is empty. -/
theorem C5_theorem :
    (∀ (couns client : String) (shift : Nat),
      parseRows "" couns client shift = []) ∧
    parseRows "Hello" "Jane" "Sam" 0 =
      [{ timestamp := "", speaker := "", quote := "Hello", tag := "" }] := by
  constructor
  · intro couns client shift
    rfl
  · decide

/-- C6 counterexample: after `"Jane: hi"` and the timestamp-only line
`"05:12"` the parser holds a pending timestamp; the continuation line
`"more"` merges into the previous turn (the rows change) yet the pending
timestamp survives. -/
theorem C6_counterexample :
    runLines ⟨"Jane", "Sam", 0, buildBarePats "Jane" "Sam"⟩ ⟨[], none, none⟩
        (splitLines "Jane: hi\n05:12".data) =
      .ok ⟨[{ timestamp := "", speaker := "Couns", quote := "hi" }],
        none, some "05:12"⟩ ∧
    step ⟨"Jane", "Sam", 0, buildBarePats "Jane" "Sam"⟩
        ⟨[{ timestamp := "", speaker := "Couns", quote := "hi" }],
          none, some "05:12"⟩ "more".data =
      .ok ⟨[{ timestamp := "", speaker := "Couns", quote := "hi more" }],
        none, some "05:12"⟩ ∧
    ([{ timestamp := "", speaker := "Couns", quote := "hi more" }] ≠
      ([{ timestamp := "", speaker := "Couns", quote := "hi" }] : List Row)) ∧
    (some "05:12" ≠ (none : Option String)) :=
  ⟨rfl, rfl, by decide, by decide⟩

/-- C6 (amended): a line that materializes a turn clears the pending
speaker, and a line that starts a new turn clears the pending timestamp as
well; a continuation-line merge, however, leaves the pending timestamp
unchanged (the pending speaker is necessarily absent there). -/
theorem C6_theorem (cfg : Cfg) (s : ParseState) (raw : List Char)
    (s' : ParseState) (h : step cfg s raw = .ok s')
    (hch : s'.rows ≠ s.rows) :
    s'.pendSp = none ∧
      (s.rows.length < s'.rows.length → s'.pendTs = none) := by
  obtain ⟨s2, h2, _, hcases⟩ := step_spec cfg s raw
  rw [h] at h2
  injection h2 with he
  subst he
  rcases hcases with hc | ⟨h1, h2'⟩ | ⟨_, hsp, _, hlen⟩
  · exact absurd hc hch
  · exact ⟨h1, fun _ => h2'⟩
  · exact ⟨hsp, fun hlt => absurd hlen (by omega)⟩

/-- C6 witness: the amended theorem applied to a concrete line that
starts a new turn. -/
theorem C6_witness :
    (⟨[{ timestamp := "", speaker := "Couns", quote := "hi" }], none, none⟩ :
        ParseState).pendSp = none ∧
      ((⟨[], none, none⟩ : ParseState).rows.length <
          (⟨[{ timestamp := "", speaker := "Couns", quote := "hi" }],
            none, none⟩ : ParseState).rows.length →
        (⟨[{ timestamp := "", speaker := "Couns", quote := "hi" }],
          none, none⟩ : ParseState).pendTs = none) :=
  C6_theorem ⟨"Jane", "Sam", 0, buildBarePats "Jane" "Sam"⟩ ⟨[], none, none⟩
    "Jane: hi".data
    ⟨[{ timestamp := "", speaker := "Couns", quote := "hi" }], none, none⟩
    rfl (by decide)

/-- C7 counterexample: the scenario's asserted output (empty tag) is not
what the parser returns. -/
theorem C7_counterexample :
    parseRows "[Jane D] 05:12 Hello there" "Jane D" "Sam" 0 ≠
      [{ timestamp := "05:12", speaker := "Couns", quote := "Hello there",
         tag := "" }] := by decide

/-- C7 (amended): the scenario's single turn has timestamp `"05:12"`,
the counselor role as speaker and quote `"Hello there"`, but its tag is
`"ME"`: the quote has two whitespace-delimited words, not four. -/
theorem C7_theorem :
    parseRows "[Jane D] 05:12 Hello there" "Jane D" "Sam" 0 =
      [{ timestamp := "05:12", speaker := "Couns", quote := "Hello there",
         tag := "ME" }] := by decide

/-- C8 counterexample: anonymize `"couns x"` for the name `"x"`, replace
the role token back (case-insensitively, as `_safe_replace_whole_name`
does), and anonymize again: the pre-existing lower-case `"couns"` of the
original text is clobbered by the back-replacement, so the round trip does
not reproduce the first anonymized text. -/
theorem C8_counterexample :
    safeReplaceWholeName "couns x" "x" "Couns" = "couns Couns" ∧
    safeReplaceWholeName "couns Couns" "Couns" "x" = "x x" ∧
    safeReplaceWholeName "x x" "x" "Couns" = "Couns Couns" ∧
    ("Couns Couns" : String) ≠ "couns Couns" :=
  ⟨by decide, by decide, by decide, by decide⟩

/-- C8 (amended): the anonymization round trip is the identity exactly
when the back-replacement restores the original text: whenever replacing
the role token back with the name undoes the anonymization, re-anonymizing
reproduces the anonymized text.  (Unconditionally the round trip can
differ, e.g. when the text already contains a case-variant of the role
token.) -/
theorem C8_theorem (text name : String) (hn : name ≠ "")
    (hback : safeReplaceWholeName (safeReplaceWholeName text name "Couns")
        "Couns" name = text) :
    safeReplaceWholeName (safeReplaceWholeName
        (safeReplaceWholeName text name "Couns") "Couns" name) name "Couns" =
      safeReplaceWholeName text name "Couns" := by
  rw [hback]

/-- C8 witness: a round trip that does restore the original text. -/
theorem C8_witness :
    safeReplaceWholeName (safeReplaceWholeName
        (safeReplaceWholeName "hello x" "x" "Couns") "Couns" "x") "x"
        "Couns" =
      safeReplaceWholeName "hello x" "x" "Couns" :=
  C8_theorem "hello x" "x" (by decide) (by decide)

end App
